import Mathlib

/-!
Verification of the bounded-concurrency retry scheduler utilities.

Shallow embedding of the concurrency-pool variants found in the repository:

- `RetryW` models `retryWrapper` (the bounded-retry helper with
  `maxRetries = 3` and rethrow on exhaustion).
- `PoolM` models the `AsyncTaskPool` variant whose internal scheduler is
  `runNext` (synchronous while-loop dispatch, unbounded re-queue of failed
  tasks, `finished` flag set at drain, `awaitAll` waiter registration).
  Task bodies are opaque labels; the adversary chooses, at each settlement,
  which in-flight task settles and whether it succeeds, which models an
  arbitrary interleaving of completions and submissions.
- `RPool` models `RequestPool` (`add` runs the task at once when a slot is
  free, `runNext` pops a single queued task on each settlement).
- `RunC` models `runConcurrently` (a fixed set of workers sharing a task
  index; each worker grabs the next index, runs the task under try/catch,
  stores the outcome at that index and loops).
- `TExec` models the task-executor module (`executeTasks`,
  `retryFailedTasks`) that keys retried work by its original index.
- `SSched` is modelled from the spec (see its section comment): the
  repository has no `close()`/`PoolClosedError`, so that component is
  translated from the specification text and checked as such.
-/

namespace RetryW

/-- Behaviour of the wrapped function: attempt number (0-based count of
earlier starts) to outcome; `Except.error` is a thrown exception. -/
def Beh (e t : Type) := Nat → Except e t

/-- Embedding of the `while (retries < maxRetries)` loop of `retryWrapper`.
First argument is `maxRetries - retries` (attempts still allowed), second is
the number of starts made so far.  Returns the outcome together with the
total number of times the wrapped function was started.  `Except.ok none`
is the implicit `undefined` return when the loop exits without running. -/
def retryGo (fn : Beh e t) : Nat → Nat → Except e (Option t) × Nat
  | 0, starts => (Except.ok none, starts)
  | n + 1, starts =>
    match fn starts with
    | Except.ok v => (Except.ok (some v), starts + 1)
    | Except.error err =>
      if n = 0 then (Except.error err, starts + 1)
      else retryGo fn n (starts + 1)

/-- Embedding of `retryWrapper`: `retries = 0`, hard-coded `maxRetries = 3`. -/
def retryWrapper (fn : Beh e t) : Except e (Option t) × Nat :=
  retryGo fn 3 0

end RetryW

namespace PoolM

/-- State of the `AsyncTaskPool` variant driven by `runNext`.  Tasks are
opaque labels of type `α`; `startLog` is a ghost log of tasks in the order
their execution began. -/
structure Pool (α : Type) where
  concurrency : Nat
  queue : List α
  running : List α
  results : List α
  finished : Bool
  pendingResolvers : Nat
  startLog : List α
deriving DecidableEq

/-- Embedding of the `while` loop in `runNext`: while
`runningCount < concurrency` and the queue is non-empty, shift the head of
the queue and start it.  Arguments: concurrency, queue, running list, ghost
start log; result: final queue, running list and start log. -/
def runNextAux (c : Nat) : List α → List α → List α → List α × List α × List α
  | [], r, log => ([], r, log)
  | t :: q, r, log =>
    if r.length < c then runNextAux c q (r ++ [t]) (log ++ [t])
    else (t :: q, r, log)

/-- Run the internal scheduler on a pool state. -/
def Pool.runNext (s : Pool α) : Pool α :=
  let z := runNextAux s.concurrency s.queue s.running s.startLog
  { s with queue := z.1, running := z.2.1, startLog := z.2.2 }

/-- Events of the pool: `add t` is a call to `add`, `settle i ok` is the
settlement of the `i`-th in-flight task body, succeeding iff `ok`. -/
inductive PAct (α : Type) where
  | add (t : α)
  | settle (i : Nat) (ok : Bool)

/-- One atomic scheduler turn.  `add` throws (returns `none`) when
`finished`; otherwise it pushes the task and runs `runNext`.  `settle`
performs the `.then`/`.catch`/`.finally` bookkeeping: push the result or
re-queue the failed task, release the slot, run `runNext`, then
`checkIfDone`.  The returned flag is true iff `checkIfDone` found the pool
drained and flushed the pending resolvers in this turn. -/
def Pool.step (s : Pool α) : PAct α → Option (Pool α × Bool)
  | PAct.add t =>
    if s.finished then none
    else some (Pool.runNext { s with queue := s.queue ++ [t] }, false)
  | PAct.settle i ok =>
    match s.running[i]? with
    | none => none
    | some t =>
      let s1 : Pool α :=
        { s with
          results := if ok then s.results ++ [t] else s.results
          queue := if ok then s.queue else s.queue ++ [t]
          running := s.running.eraseIdx i }
      let s2 := Pool.runNext s1
      let fired := s2.running.isEmpty && s2.queue.isEmpty
      some ({ s2 with
                finished := s2.finished || fired
                pendingResolvers := if fired then 0 else s2.pendingResolvers },
            fired)

/-- Embedding of `awaitAll`: when `finished`, resolve immediately with the
current results; otherwise register one more pending resolver. -/
def Pool.awaitAll (s : Pool α) : Option (List α) × Pool α :=
  if s.finished then (some s.results, s)
  else (none, { s with pendingResolvers := s.pendingResolvers + 1 })

/-- Pool state freshly constructed with the given concurrency. -/
def initPool (α : Type) (c : Nat) : Pool α :=
  { concurrency := c, queue := [], running := [], results := []
    finished := false, pendingResolvers := 0, startLog := [] }

/-- Reachability of pool states: the initial state, closed under scheduler
turns and `awaitAll` calls. -/
inductive Pool.Reach : Pool α → Prop
  | init (c : Nat) : Pool.Reach (initPool α c)
  | step {s : Pool α} {a : PAct α} {out : Pool α × Bool} :
      Pool.Reach s → Pool.step s a = some out → Pool.Reach out.1
  | awaited {s : Pool α} : Pool.Reach s → Pool.Reach (Pool.awaitAll s).2

end PoolM

namespace RPool

/-- Counting abstraction of `RequestPool`: `active` is `activeCount`,
`queued` is `requestQueue.length`.  Task identities are irrelevant to the
concurrency bound, so only counts are tracked. -/
structure RP where
  maxConcurrent : Nat
  active : Nat
  queued : Nat
deriving DecidableEq

/-- Settlement bookkeeping of a request: the `finally` block decrements
`activeCount` and calls `runNext`, which starts one queued task when a slot
is free. -/
def RP.settle (s : RP) : RP :=
  let a := s.active - 1
  if 0 < s.queued ∧ a < s.maxConcurrent then
    { s with active := a + 1, queued := s.queued - 1 }
  else
    { s with active := a }

/-- Atomic turns of `RequestPool`: `add` either starts the request at once
(slot free) or queues it; `settle` is the `finally` bookkeeping of a
running request. -/
inductive RP.Step : RP → RP → Prop
  | addRun (s : RP) : s.active < s.maxConcurrent →
      RP.Step s { s with active := s.active + 1 }
  | addQueue (s : RP) : ¬ s.active < s.maxConcurrent →
      RP.Step s { s with queued := s.queued + 1 }
  | settle (s : RP) : 0 < s.active → RP.Step s (RP.settle s)

/-- Reachability of `RequestPool` states from a fresh pool. -/
inductive RP.Reach : RP → Prop
  | init (m : Nat) : RP.Reach ⟨m, 0, 0⟩
  | step {s t : RP} : RP.Reach s → RP.Step s t → RP.Reach t

end RPool

namespace SSched

/-- Modelled from the spec: the repository sources contain no `close()`
operation and no `PoolClosedError`; this error type follows the spec error
taxonomy for submissions after `close()`. -/
inductive PoolClosedError where
  | poolClosed
deriving DecidableEq

/-- Modelled from the spec: scheduler state of the bounded-concurrency
retry scheduler (spec section 4.1).  Queue and running entries are pairs of
task id and attempts (count of execution starts); `submitted` is a ghost
log of every admitted id. -/
structure Sched where
  maxConc : Nat
  maxAtt : Nat
  closed : Bool
  queue : List (Nat × Nat)
  running : List (Nat × Nat)
  succeeded : List Nat
  abandoned : List Nat
  submitted : List Nat
deriving DecidableEq

/-- Modelled from the spec: the dispatch loop — while
`activeCount < maxConcurrency` and the queue is non-empty, pop the head,
transition it to Running (incrementing its attempts, the count of execution
starts) and begin executing it. -/
def dispatchAux (c : Nat) :
    List (Nat × Nat) → List (Nat × Nat) → List (Nat × Nat) × List (Nat × Nat)
  | [], r => ([], r)
  | p :: q, r =>
    if r.length < c then dispatchAux c q (r ++ [(p.1, p.2 + 1)])
    else (p :: q, r)

/-- Run the dispatch loop on a scheduler state. -/
def Sched.dispatch (s : Sched) : Sched :=
  let z := dispatchAux s.maxConc s.queue s.running
  { s with queue := z.1, running := z.2 }

/-- Modelled from the spec: `submit` fails with `PoolClosed` if `closed`,
otherwise appends a Queued record with 0 starts and dispatches. -/
def Sched.submit (s : Sched) (tid : Nat) : Except PoolClosedError Sched :=
  if s.closed then Except.error PoolClosedError.poolClosed
  else
    Except.ok (Sched.dispatch
      { s with queue := s.queue ++ [(tid, 0)]
               submitted := s.submitted ++ [tid] })

/-- Modelled from the spec: `close()` sets `closed = true` and has no
effect on already queued or running records. -/
def Sched.close (s : Sched) : Sched := { s with closed := true }

/-- Modelled from the spec: settlement of the `i`-th running record.  On
success it is archived as Succeeded; on failure the default retry policy
re-queues it at the tail while `attempts < maxAttempts`, otherwise it is
archived as Abandoned; then the dispatch loop runs again. -/
def Sched.settleTask (s : Sched) (i : Nat) (ok : Bool) : Option Sched :=
  match s.running[i]? with
  | none => none
  | some p =>
    let s1 := { s with running := s.running.eraseIdx i }
    let s2 :=
      if ok then { s1 with succeeded := s1.succeeded ++ [p.1] }
      else if p.2 < s.maxAtt then { s1 with queue := s1.queue ++ [p] }
      else { s1 with abandoned := s1.abandoned ++ [p.1] }
    some (Sched.dispatch s2)

/-- Events of the spec scheduler. -/
inductive SAct where
  | submit (tid : Nat)
  | close
  | settle (i : Nat) (ok : Bool)

/-- One scheduler turn; a rejected submission is not a transition. -/
def Sched.step (s : Sched) : SAct → Option Sched
  | SAct.submit tid => (Sched.submit s tid).toOption
  | SAct.close => some (Sched.close s)
  | SAct.settle i ok => Sched.settleTask s i ok

/-- Freshly configured scheduler. -/
def initSched (c ma : Nat) : Sched :=
  ⟨c, ma, false, [], [], [], [], []⟩

/-- Reachability of spec-scheduler states. -/
inductive Sched.Reach : Sched → Prop
  | init (c ma : Nat) : Sched.Reach (initSched c ma)
  | step {s : Sched} {a : SAct} {s2 : Sched} :
      Sched.Reach s → Sched.step s a = some s2 → Sched.Reach s2

/-- Task ids of a record list. -/
def ids (l : List (Nat × Nat)) : List Nat := l.map Prod.fst

end SSched

namespace TExec

/-- JS `Map.get` on the list of `set` events that built the map: the last
binding for a key wins. -/
def jsGet [DecidableEq γ] : List (γ × Nat) → γ → Option Nat
  | [], _ => none
  | (k, v) :: rest, t =>
    match jsGet rest t with
    | some v2 => some v2
    | none => if k = t then some v else none

/-- JS `Map.set` for an index-keyed map: replace in place when the key is
present, otherwise append. -/
def jsSet (m : List (Nat × β)) (k : Nat) (v : β) : List (Nat × β) :=
  if (m.map Prod.fst).contains k then
    m.map (fun q => if q.1 = k then (k, v) else q)
  else m ++ [(k, v)]

/-- Executor state: successes and failed tasks keyed by original index. -/
structure TEState (γ τ : Type) where
  successResults : List (Nat × τ)
  failedTasks : List (Nat × γ)

/-- Per-task record returned by `executeTasks`. -/
structure TaskRes (ε τ : Type) where
  success : Bool
  index : Nat
  result : Option τ
  error : Option ε
deriving DecidableEq

/-- Embedding of `executeTasks`: each task resolves its original index via
the `taskIndices` map `ti` (defaulting to its current position), runs, and
records its outcome in the state under that index.  Task behaviour is the
pure function `beh`; `idx` is the position of the head of `l` in the mapped
array.  Distinct original indices make the per-task state writes commute,
so the settlement order of the underlying promises is irrelevant and the
list fold is faithful. -/
def executeTasks [DecidableEq γ] (beh : γ → Except ε τ)
    (ti : List (γ × Nat)) :
    List γ → Nat → TEState γ τ → List (TaskRes ε τ) × TEState γ τ
  | [], _, st => ([], st)
  | t :: rest, idx, st =>
    let oi := (jsGet ti t).getD idx
    match beh t with
    | Except.ok v =>
      let st1 := { st with successResults := jsSet st.successResults oi v }
      let z := executeTasks beh ti rest (idx + 1) st1
      (⟨true, oi, some v, none⟩ :: z.1, z.2)
    | Except.error err =>
      let st1 := { st with failedTasks := jsSet st.failedTasks oi t }
      let z := executeTasks beh ti rest (idx + 1) st1
      (⟨false, oi, none, some err⟩ :: z.1, z.2)

/-- Embedding of `retryFailedTasks`: snapshot the failed map, build the
task-to-original-index map, clear the failed map, and re-execute exactly
the previously failed tasks. -/
def retryFailedTasks [DecidableEq γ] (beh : γ → Except ε τ)
    (st : TEState γ τ) : List (TaskRes ε τ) × TEState γ τ :=
  let farr := st.failedTasks
  let ti := farr.map (fun q => (q.2, q.1))
  executeTasks beh ti (farr.map Prod.snd) 0 { st with failedTasks := [] }

end TExec

namespace RunC

/-- Status of one worker chain (`next()` call) of `runConcurrently`:
`idle` is about to grab the shared task index, `running i` is awaiting
`runTask i`, `done` has seen an index past the end and returned. -/
inductive WStat where
  | idle
  | running (i : Nat)
  | done
deriving DecidableEq

/-- The per-task record stored by `runTask` (`TaskResult` in the source):
a success flag with the data or the caught error. -/
structure TSRes (ε τ : Type) where
  success : Bool
  data : Option τ
  error : Option ε
deriving DecidableEq

/-- Embedding of `runTask`'s try/catch: the record written at the task's
index.  A failing task body (`Except.error`) is caught by the handler and
converted into a failure record — the error is never re-thrown. -/
def runTask (o : Except ε τ) : TSRes ε τ :=
  match o with
  | Except.ok v => ⟨true, some v, none⟩
  | Except.error err => ⟨false, none, some err⟩

/-- Shared state of one `runConcurrently` call: the shared `taskIndex`
counter, the results array (a slot per input task) and the workers. -/
structure RC (ε τ : Type) where
  taskIndex : Nat
  results : List (Option (TSRes ε τ))
  workers : List WStat
deriving DecidableEq

/-- Scheduler events: worker `w` grabs the next index (the synchronous
segment `currentIndex = taskIndex++` plus the bounds check), or worker `w`
finishes its current task (its `await` settles and `runTask` stores the
outcome). -/
inductive RCAct where
  | grab (w : Nat)
  | finish (w : Nat)

/-- One event of a `runConcurrently` execution; the interleaving of workers
is chosen by the adversary. -/
def RC.step (tasks : List (Except ε τ)) (s : RC ε τ) : RCAct → Option (RC ε τ)
  | RCAct.grab w =>
    match s.workers[w]? with
    | some WStat.idle =>
      if s.taskIndex < tasks.length then
        some { taskIndex := s.taskIndex + 1, results := s.results,
               workers := s.workers.set w (WStat.running s.taskIndex) }
      else
        some { taskIndex := s.taskIndex + 1, results := s.results,
               workers := s.workers.set w WStat.done }
    | _ => none
  | RCAct.finish w =>
    match s.workers[w]? with
    | some (WStat.running i) =>
      match tasks[i]? with
      | some o =>
        some { taskIndex := s.taskIndex,
               results := s.results.set i (some (runTask o)),
               workers := s.workers.set w WStat.idle }
      | none => none
    | _ => none

/-- Initial state: empty results, `k` idle workers (the source starts
`min maxConcurrent tasks.length` chains). -/
def initRC (ε τ : Type) (n k : Nat) : RC ε τ :=
  ⟨0, List.replicate n none, List.replicate k WStat.idle⟩

/-- Reachability of `runConcurrently` execution states. -/
inductive RC.Reach (tasks : List (Except ε τ)) (k : Nat) : RC ε τ → Prop
  | init : RC.Reach tasks k (initRC ε τ tasks.length k)
  | step {s : RC ε τ} {a : RCAct} {s2 : RC ε τ} :
      RC.Reach tasks k s → RC.step tasks s a = some s2 →
      RC.Reach tasks k s2

/-- Validity guard of `runConcurrently` itself: the call throws only on an
invalid concurrency bound, never because of task failures. -/
def rcGuard (mc : Nat) : Except String Unit :=
  if mc < 1 then Except.error "maxConcurrent must be greater than 0"
  else Except.ok ()

/-- Execution invariant of `runConcurrently`. -/
structure Inv (tasks : List (Except ε τ)) (k : Nat) (s : RC ε τ) : Prop where
  hW : s.workers.length = k
  hL : s.results.length = tasks.length
  hR : ∀ (w i : Nat), s.workers[w]? = some (WStat.running i) →
      i < s.taskIndex ∧ i < tasks.length ∧ s.results[i]? = some none
  hD : ∀ (w1 w2 i : Nat), s.workers[w1]? = some (WStat.running i) →
      s.workers[w2]? = some (WStat.running i) → w1 = w2
  hF : ∀ (i : Nat) (o : Except ε τ), i < s.taskIndex → tasks[i]? = some o →
      s.results[i]? = some (some (runTask o))
        ∨ ∃ w : Nat, s.workers[w]? = some (WStat.running i)
  hU : ∀ i : Nat, s.taskIndex ≤ i → i < tasks.length →
      s.results[i]? = some none
  hT : (∃ w : Nat, s.workers[w]? = some WStat.done) →
      tasks.length ≤ s.taskIndex

end RunC

namespace RetryW

/-- Unfolding of one loop iteration of `retryWrapper`. -/
theorem retryGo_succ (fn : Beh e t) (n starts : Nat) :
    retryGo fn (n + 1) starts =
      match fn starts with
      | Except.ok v => (Except.ok (some v), starts + 1)
      | Except.error err =>
        if n = 0 then (Except.error err, starts + 1)
        else retryGo fn n (starts + 1) := rfl

/-- With an always-failing body, the retry loop starts the body once per
allowed attempt and then propagates the last error. -/
theorem retryGo_fails (fn : Beh e t)
    (hfail : ∀ k, ∃ err, fn k = Except.error err) :
    ∀ n starts, 0 < n →
      ∃ err, retryGo fn n starts = (Except.error err, starts + n) := by
  intro n
  induction n with
  | zero =>
    intro starts h
    exact absurd h (by omega)
  | succ m ih =>
    intro starts _
    obtain ⟨err, herr⟩ := hfail starts
    by_cases hm : m = 0
    · subst hm
      refine ⟨err, ?_⟩
      rw [retryGo_succ, herr]
      simp
    · obtain ⟨err2, herr2⟩ := ih (starts + 1) (by omega)
      refine ⟨err2, ?_⟩
      rw [retryGo_succ, herr]
      simp only [if_neg hm, herr2]
      congr 1
      omega

end RetryW

namespace PoolM

/-- Full characterisation of the dispatch loop: it moves exactly the first
`min (c - r.length) q.length` queued tasks, in queue order, into the running
set and the start log. -/
theorem runNextAux_eq (c : Nat) (q r log : List α) :
    runNextAux c q r log =
      (q.drop (min (c - r.length) q.length),
       r ++ q.take (min (c - r.length) q.length),
       log ++ q.take (min (c - r.length) q.length)) := by
  induction q generalizing r log with
  | nil => simp [runNextAux]
  | cons t q2 ih =>
    by_cases hlt : r.length < c
    · have hsub : c - r.length = (c - (r.length + 1)) + 1 := by omega
      have hmin : min (c - r.length) (q2.length + 1)
          = min (c - (r.length + 1)) q2.length + 1 := by
        rw [hsub, Nat.succ_min_succ]
      simp only [runNextAux, if_pos hlt, ih]
      simp [hmin, List.length_append, List.append_assoc]
    · have hz : c - r.length = 0 := by omega
      simp [runNextAux, if_neg hlt, hz]

/-- Conservation: the dispatch loop neither creates nor destroys tasks. -/
theorem runNextAux_length (c : Nat) (q r log : List α) :
    (runNextAux c q r log).1.length + (runNextAux c q r log).2.1.length
      = q.length + r.length := by
  rw [runNextAux_eq]
  simp only [List.length_drop, List.length_append, List.length_take]
  omega

/-- The dispatch loop never pushes the running count above the cap. -/
theorem runNextAux_running_le (c : Nat) (q r log : List α)
    (h : r.length ≤ c) : (runNextAux c q r log).2.1.length ≤ c := by
  rw [runNextAux_eq]
  simp only [List.length_append, List.length_take]
  omega

/-- Core safety invariant of the pool: the number of in-flight task bodies
never exceeds the configured concurrency. -/
theorem pool_running_le (s : Pool α) (h : Pool.Reach s) :
    s.running.length ≤ s.concurrency := by
  induction h with
  | init c => simp [initPool]
  | step hr hs ih =>
    rename_i s a out
    cases a with
    | add t =>
      simp only [Pool.step] at hs
      split at hs
      · exact absurd hs (by simp)
      · cases hs
        exact runNextAux_running_le _ _ _ _ ih
    | settle i ok =>
      simp only [Pool.step] at hs
      split at hs
      · exact absurd hs (by simp)
      · cases hs
        refine runNextAux_running_le _ _ _ _ ?_
        show (s.running.eraseIdx i).length ≤ s.concurrency
        have := List.length_eraseIdx s.running i
        split at this <;> omega
  | awaited hr ih =>
    rename_i s
    by_cases hf : s.finished <;> simp [Pool.awaitAll, hf, ih]

/-- Drained pools stay drained: in every reachable state the `finished`
flag implies that nothing is running and nothing is queued. -/
theorem pool_finished_drained (s : Pool α) (h : Pool.Reach s) :
    s.finished = true → s.running = [] ∧ s.queue = [] := by
  induction h with
  | init c => simp [initPool]
  | step hr hs ih =>
    rename_i s a out
    cases a with
    | add t =>
      simp only [Pool.step] at hs
      split at hs
      · exact absurd hs (by simp)
      · cases hs
        intro hfin
        exact absurd hfin (by simp_all [Pool.runNext])
    | settle i ok =>
      simp only [Pool.step] at hs
      split at hs
      · exact absurd hs (by simp)
      · rename_i t hget
        cases hs
        intro hfin
        have hne : s.running ≠ [] := by
          intro hnil
          rw [hnil] at hget
          simp at hget
        have hsf : s.finished = false := by
          by_contra hc
          have := ih (by simpa using hc)
          exact hne this.1
        simp only [Pool.runNext, hsf, Bool.false_or] at hfin ⊢
        have hfired := hfin
        simp only [Bool.and_eq_true, List.isEmpty_iff] at hfired
        exact hfired
  | awaited hr ih =>
    rename_i s
    by_cases hf : s.finished <;> simp_all [Pool.awaitAll, hf]

/-- The drained/fired flag returned by a scheduler turn is true exactly when
the post-turn state has no running task and an empty queue. -/
theorem pool_step_fired (s : Pool α) (a : PAct α) (out : Pool α × Bool)
    (h : Pool.step s a = some out) :
    out.2 = true ↔ (out.1.running = [] ∧ out.1.queue = []) := by
  cases a with
  | add t =>
    simp only [Pool.step] at h
    split at h
    · exact absurd h (by simp)
    · cases h
      constructor
      · intro hf
        exact absurd hf (by simp)
      · intro hdr
        exfalso
        have hlen := runNextAux_length s.concurrency (s.queue ++ [t])
          s.running s.startLog
        have h1 : (runNextAux s.concurrency (s.queue ++ [t])
            s.running s.startLog).2.1 = [] := hdr.1
        have h2 : (runNextAux s.concurrency (s.queue ++ [t])
            s.running s.startLog).1 = [] := hdr.2
        rw [h1, h2] at hlen
        simp at hlen
        omega
  | settle i ok =>
    simp only [Pool.step] at h
    split at h
    · exact absurd h (by simp)
    · cases h
      simp [Bool.and_eq_true, List.isEmpty_iff]

/-- A turn from a `finished` pool never clears the flag, and `add` is
rejected outright on a `finished` pool. -/
theorem pool_finished_mono (s : Pool α) (a : PAct α) (out : Pool α × Bool)
    (h : Pool.step s a = some out) (hfin : s.finished = true) :
    out.1.finished = true := by
  cases a with
  | add t =>
    simp only [Pool.step, hfin] at h
    exact absurd h (by simp)
  | settle i ok =>
    simp only [Pool.step] at h
    split at h
    · exact absurd h (by simp)
    · cases h
      simp [Pool.runNext, hfin]

/-- Concrete trace: a fresh pool of concurrency 1 after one submission. -/
theorem reach_one_running :
    Pool.Reach (⟨1, [], [0], [], false, 0, [0]⟩ : Pool Nat) :=
  @Pool.Reach.step Nat (initPool Nat 1) (PAct.add 0)
    ((⟨1, [], [0], [], false, 0, [0]⟩ : Pool Nat), false)
    (Pool.Reach.init 1) rfl

/-- Concrete trace continued: the single task settles successfully, the
pool drains and `finished` is set. -/
theorem reach_drained :
    Pool.Reach (⟨1, [], [], [0], true, 0, [0]⟩ : Pool Nat) :=
  @Pool.Reach.step Nat (⟨1, [], [0], [], false, 0, [0]⟩ : Pool Nat)
    (PAct.settle 0 true) ((⟨1, [], [], [0], true, 0, [0]⟩ : Pool Nat), true)
    reach_one_running rfl

end PoolM

namespace RPool

/-- Concurrency bound for `RequestPool`. -/
theorem rp_active_le_max (s : RP) (h : RP.Reach s) :
    s.active ≤ s.maxConcurrent := by
  induction h with
  | init m => exact Nat.zero_le m
  | step hr hs ih =>
    cases hs with
    | addRun hlt => simpa using hlt
    | addQueue hge => simpa using ih
    | settle hpos =>
      simp only [RP.settle]
      split
      · rename_i hcond
        simpa using hcond.2
      · simp only
        omega

end RPool

namespace SSched

/-- Dispatching moves records between queue and running, preserving the
multiset of ids. -/
theorem dispatchAux_ids (c : Nat) (q r : List (Nat × Nat)) :
    (ids (dispatchAux c q r).1 : Multiset Nat) + (ids (dispatchAux c q r).2)
      = (ids q : Multiset Nat) + (ids r) := by
  induction q generalizing r with
  | nil => simp [dispatchAux]
  | cons p q2 ih =>
    by_cases hlt : r.length < c
    · simp only [dispatchAux, if_pos hlt, ih]
      simp only [ids, List.map_append, List.map_cons, List.map_nil]
      simp only [← Multiset.coe_add, ← Multiset.cons_coe]
      simp only [← Multiset.singleton_add]
      abel
    · simp [dispatchAux, if_neg hlt]

/-- Removing the `i`-th record splits off its id from the id multiset. -/
theorem ids_eraseIdx (l : List (Nat × Nat)) (i : Nat) (p : Nat × Nat)
    (h : l[i]? = some p) :
    (ids l : Multiset Nat) = p.1 ::ₘ (ids (l.eraseIdx i) : Multiset Nat) := by
  have hi : i < l.length := by
    by_contra hc
    rw [List.getElem?_eq_none (by omega)] at h
    exact absurd h (by simp)
  have hget : l[i] = p := by
    have := List.getElem?_eq_getElem hi
    rw [this] at h
    exact Option.some_inj.mp h
  have hsplit : l = l.take i ++ l[i] :: l.drop (i + 1) := by
    rw [List.getElem_cons_drop l i hi, List.take_append_drop]
  rw [List.eraseIdx_eq_take_drop_succ]
  conv_lhs => rw [hsplit]
  rw [hget]
  simp only [ids, List.map_append, List.map_cons]
  rw [Multiset.cons_coe]
  exact Multiset.coe_eq_coe.mpr List.perm_middle

/-- Dispatch commutes with setting the closed flag. -/
theorem dispatch_closed (s : Sched) (b : Bool) :
    Sched.dispatch { s with closed := b }
      = { Sched.dispatch s with closed := b } := rfl

/-- Settlement bookkeeping never reads the closed flag: closing the pool
neither disables nor alters the completion of admitted tasks. -/
theorem settleTask_closed (s : Sched) (i : Nat) (ok b : Bool) :
    Sched.settleTask { s with closed := b } i ok
      = (Sched.settleTask s i ok).map (fun u => { u with closed := b }) := by
  dsimp only [Sched.settleTask]
  cases hp : s.running[i]? with
  | none => rfl
  | some p =>
    cases ok with
    | true => rfl
    | false =>
      dsimp only
      by_cases hatt : p.2 < s.maxAtt
      · rw [if_pos hatt, if_pos hatt]
        rfl
      · rw [if_neg hatt, if_neg hatt]
        rfl

/-- Partition invariant: every admitted id is, at all times, in exactly one
of queue, running, succeeded or abandoned (as multisets). -/
theorem sched_partition (s : Sched) (h : Sched.Reach s) :
    (ids s.queue : Multiset Nat) + (ids s.running) + s.succeeded + s.abandoned
      = (s.submitted : Multiset Nat) := by
  induction h with
  | init c ma => simp [initSched, ids]
  | step hr hs ih =>
    rename_i s a s2
    cases a with
    | submit tid =>
      simp only [Sched.step, Sched.submit] at hs
      split at hs
      · exact absurd hs (by simp [Except.toOption])
      · simp only [Except.toOption] at hs
        cases hs
        dsimp only [Sched.dispatch]
        rw [dispatchAux_ids]
        simp only [ids, List.map_append, List.map_cons, List.map_nil] at ih ⊢
        simp only [← Multiset.coe_add]
        rw [← ih]
        abel
    | close =>
      simp only [Sched.step, Sched.close] at hs
      cases hs
      simpa using ih
    | settle i ok =>
      simp only [Sched.step, Sched.settleTask] at hs
      cases hp : s.running[i]? with
      | none =>
        rw [hp] at hs
        exact absurd hs (by simp)
      | some p =>
        rw [hp] at hs
        simp only at hs
        cases hs
        have herase := ids_eraseIdx s.running i p hp
        by_cases hok : ok
        · simp only [hok, if_true]
          dsimp only [Sched.dispatch]
          rw [dispatchAux_ids]
          rw [← ih, herase]
          simp only [ids, List.map_append, List.map_cons, List.map_nil]
          simp only [← Multiset.coe_add, ← Multiset.cons_coe,
            ← Multiset.singleton_add]
          abel
        · by_cases hatt : p.2 < s.maxAtt
          · simp only [hok, hatt, if_true, if_false, Bool.false_eq_true]
            dsimp only [Sched.dispatch]
            rw [dispatchAux_ids]
            rw [← ih, herase]
            simp only [ids, List.map_append, List.map_cons, List.map_nil]
            simp only [← Multiset.coe_add, ← Multiset.cons_coe,
              ← Multiset.singleton_add]
            abel
          · simp only [hok, hatt, if_false, Bool.false_eq_true]
            dsimp only [Sched.dispatch]
            rw [dispatchAux_ids]
            rw [← ih, herase]
            simp only [ids, List.map_append, List.map_cons, List.map_nil]
            simp only [← Multiset.coe_add, ← Multiset.cons_coe,
              ← Multiset.singleton_add]
            abel

/-- At a drained state every admitted id is in the terminal partition. -/
theorem sched_drained_partition (s : Sched) (h : Sched.Reach s)
    (hq : s.queue = []) (hr : s.running = []) :
    s.submitted.Perm (s.succeeded ++ s.abandoned) := by
  have hp := sched_partition s h
  rw [hq, hr] at hp
  have h2 : ((s.succeeded ++ s.abandoned : List Nat) : Multiset Nat)
      = (s.submitted : Multiset Nat) := by
    rw [← Multiset.coe_add]
    simpa [ids] using hp
  exact (Multiset.coe_eq_coe.mp h2).symm

/-- Concrete trace of the spec scheduler: one task submitted, dispatched
and settled as a failure with attempts exhausted, hence abandoned. -/
theorem sched_reach_drained :
    Sched.Reach (⟨1, 1, false, [], [], [], [0], [0]⟩ : Sched) :=
  @Sched.Reach.step ⟨1, 1, false, [], [(0, 1)], [], [], [0]⟩
    (SAct.settle 0 false) ⟨1, 1, false, [], [], [], [0], [0]⟩
    (@Sched.Reach.step (initSched 1 1) (SAct.submit 0)
      ⟨1, 1, false, [], [(0, 1)], [], [], [0]⟩
      (Sched.Reach.init 1 1) rfl) rfl

end SSched

namespace TExec

/-- A key absent from every binding is not found. -/
theorem jsGet_not_mem [DecidableEq γ] (m : List (γ × Nat)) (t : γ)
    (h : ∀ q ∈ m, q.1 ≠ t) : jsGet m t = none := by
  induction m with
  | nil => rfl
  | cons q rest ih =>
    obtain ⟨k, v⟩ := q
    simp only [jsGet]
    rw [ih (fun q hq => h q (List.mem_cons_of_mem _ hq))]
    have hk : k ≠ t := h (k, v) (List.mem_cons_self _ _)
    simp [hk]

/-- In the swapped task-to-index map built from a failed-map snapshot with
pairwise-distinct tasks, every failed task is found at its original
index. -/
theorem jsGet_swap_mem [DecidableEq γ] (F : List (Nat × γ)) (i : Nat) (t : γ)
    (hnd : (F.map Prod.snd).Nodup) (hmem : (i, t) ∈ F) :
    jsGet (F.map (fun q => (q.2, q.1))) t = some i := by
  induction F with
  | nil => exact absurd hmem (by simp)
  | cons q rest ih =>
    obtain ⟨j, u⟩ := q
    simp only [List.map_cons, List.nodup_cons] at hnd
    rcases List.mem_cons.mp hmem with hhead | htail
    · injection hhead with hj hu
      subst hj
      subst hu
      simp only [List.map_cons, jsGet]
      rw [jsGet_not_mem]
      · simp
      · intro q hq
        simp only [List.mem_map] at hq
        obtain ⟨x, hx, hxq⟩ := hq
        intro hc
        apply hnd.1
        rw [← hxq] at hc
        simp only at hc
        rw [← hc]
        exact List.mem_map_of_mem Prod.snd hx
    · have := ih hnd.2 htail
      simp only [List.map_cons, jsGet, this]

/-- When every task of the batch is bound in the task-index map, the
reported indices are exactly the bound original indices, independent of the
batch positions. -/
theorem executeTasks_indices_found [DecidableEq γ] (beh : γ → Except ε τ)
    (ti : List (γ × Nat)) :
    ∀ (l : List γ) (idx : Nat) (st : TEState γ τ),
      (∀ t ∈ l, (jsGet ti t).isSome = true) →
      (executeTasks beh ti l idx st).1.map TaskRes.index
        = l.map (fun t => (jsGet ti t).getD 0) := by
  intro l
  induction l with
  | nil => intro idx st hall; rfl
  | cons t rest ih =>
    intro idx st hall
    have ht := hall t (List.mem_cons_self _ _)
    have hrest : ∀ u ∈ rest, (jsGet ti u).isSome = true :=
      fun u hu => hall u (List.mem_cons_of_mem _ hu)
    obtain ⟨i, hi⟩ := Option.isSome_iff_exists.mp ht
    cases hb : beh t with
    | ok v =>
      simp only [executeTasks, hb, List.map_cons]
      rw [ih (idx + 1) _ hrest]
      simp [hi]
    | error err =>
      simp only [executeTasks, hb, List.map_cons]
      rw [ih (idx + 1) _ hrest]
      simp [hi]

/-- On a first run (empty task-index map) the reported indices are the
batch positions. -/
theorem executeTasks_indices_first [DecidableEq γ] (beh : γ → Except ε τ) :
    ∀ (l : List γ) (idx : Nat) (st : TEState γ τ),
      (executeTasks beh [] l idx st).1.map TaskRes.index
        = List.range' idx l.length := by
  intro l
  induction l with
  | nil => intro idx st; rfl
  | cons t rest ih =>
    intro idx st
    cases hb : beh t with
    | ok v =>
      simp only [executeTasks, hb, List.map_cons]
      rw [ih (idx + 1)]
      simp [jsGet, List.range']
    | error err =>
      simp only [executeTasks, hb, List.map_cons]
      rw [ih (idx + 1)]
      simp [jsGet, List.range']

end TExec

namespace RunC

/-- Index bound extracted from a successful indexed lookup. -/
theorem lt_of_get? {l : List β} {i : Nat} {x : β} (h : l[i]? = some x) :
    i < l.length := by
  by_contra hc
  rw [List.getElem?_eq_none (by omega)] at h
  exact absurd h (by simp)

/-- The initial state satisfies the invariant. -/
theorem inv_init (tasks : List (Except ε τ)) (k : Nat) :
    Inv tasks k (initRC ε τ tasks.length k) := by
  constructor
  · simp [initRC]
  · simp [initRC]
  · intro w i h
    simp only [initRC, List.getElem?_replicate] at h
    split at h
    · exact absurd h (by simp)
    · exact absurd h (by simp)
  · intro w1 w2 i h1 h2
    simp only [initRC, List.getElem?_replicate] at h1
    split at h1
    · exact absurd h1 (by simp)
    · exact absurd h1 (by simp)
  · intro i o hi ho
    simp only [initRC] at hi
    omega
  · intro i h1 h2
    simp only [initRC] at h1 h2 ⊢
    simp [List.getElem?_replicate, h2]
  · intro hex
    obtain ⟨w, hw⟩ := hex
    simp only [initRC, List.getElem?_replicate] at hw
    split at hw
    · exact absurd hw (by simp)
    · exact absurd hw (by simp)

/-- A grab event preserves the invariant. -/
theorem inv_grab (tasks : List (Except ε τ)) (k : Nat) (s s2 : RC ε τ)
    (w : Nat) (hinv : Inv tasks k s)
    (h : RC.step tasks s (RCAct.grab w) = some s2) : Inv tasks k s2 := by
  obtain ⟨hW, hL, hR, hD, hF, hU, hT⟩ := hinv
  simp only [RC.step] at h
  split at h
  · rename_i hw
    have hwlt : w < s.workers.length := lt_of_get? hw
    split at h
    · rename_i hlt
      cases h
      refine ⟨?_, ?_, ?_, ?_, ?_, ?_, ?_⟩ <;> dsimp only
      · simpa using hW
      · simpa using hL
      · intro w2 i h2
        simp only [List.getElem?_set] at h2
        by_cases hww : w = w2
        · subst hww
          rw [if_pos rfl, if_pos hwlt] at h2
          simp only [Option.some.injEq, WStat.running.injEq] at h2
          subst h2
          exact ⟨by omega, hlt, hU s.taskIndex (le_refl _) hlt⟩
        · rw [if_neg hww] at h2
          obtain ⟨h1b, h2b, h3b⟩ := hR w2 i h2
          exact ⟨by omega, h2b, h3b⟩
      · intro w1 w2 i h1 h2
        simp only [List.getElem?_set] at h1 h2
        by_cases hw1 : w = w1
        · by_cases hw2 : w = w2
          · omega
          · subst hw1
            rw [if_pos rfl, if_pos hwlt] at h1
            rw [if_neg hw2] at h2
            simp only [Option.some.injEq, WStat.running.injEq] at h1
            subst h1
            have := (hR w2 _ h2).1
            omega
        · by_cases hw2 : w = w2
          · subst hw2
            rw [if_neg hw1] at h1
            rw [if_pos rfl, if_pos hwlt] at h2
            simp only [Option.some.injEq, WStat.running.injEq] at h2
            subst h2
            have := (hR w1 _ h1).1
            omega
          · rw [if_neg hw1] at h1
            rw [if_neg hw2] at h2
            exact hD w1 w2 i h1 h2
      · intro i o hi ho
        by_cases hi2 : i < s.taskIndex
        · rcases hF i o hi2 ho with hres | ⟨w2, hw2⟩
          · exact Or.inl hres
          · right
            refine ⟨w2, ?_⟩
            have hww : w ≠ w2 := by
              intro hc
              subst hc
              rw [hw] at hw2
              exact absurd hw2 (by simp)
            rw [List.getElem?_set, if_neg hww]
            exact hw2
        · have hieq : i = s.taskIndex := by omega
          subst hieq
          right
          refine ⟨w, ?_⟩
          rw [List.getElem?_set, if_pos rfl, if_pos hwlt]
      · intro i h1 h2
        exact hU i (by omega) h2
      · intro hex
        obtain ⟨w2, hw2⟩ := hex
        simp only [List.getElem?_set] at hw2
        by_cases hww : w = w2
        · subst hww
          rw [if_pos rfl, if_pos hwlt] at hw2
          exact absurd hw2 (by simp)
        · rw [if_neg hww] at hw2
          have := hT ⟨w2, hw2⟩
          omega
    · rename_i hlt
      cases h
      refine ⟨?_, ?_, ?_, ?_, ?_, ?_, ?_⟩ <;> dsimp only
      · simpa using hW
      · simpa using hL
      · intro w2 i h2
        simp only [List.getElem?_set] at h2
        by_cases hww : w = w2
        · subst hww
          rw [if_pos rfl, if_pos hwlt] at h2
          exact absurd h2 (by simp)
        · rw [if_neg hww] at h2
          obtain ⟨h1b, h2b, h3b⟩ := hR w2 i h2
          exact ⟨by omega, h2b, h3b⟩
      · intro w1 w2 i h1 h2
        simp only [List.getElem?_set] at h1 h2
        by_cases hw1 : w = w1
        · subst hw1
          rw [if_pos rfl, if_pos hwlt] at h1
          exact absurd h1 (by simp)
        · by_cases hw2 : w = w2
          · subst hw2
            rw [if_pos rfl, if_pos hwlt] at h2
            exact absurd h2 (by simp)
          · rw [if_neg hw1] at h1
            rw [if_neg hw2] at h2
            exact hD w1 w2 i h1 h2
      · intro i o hi ho
        have hin : i < tasks.length := lt_of_get? ho
        have hi2 : i < s.taskIndex := by omega
        rcases hF i o hi2 ho with hres | ⟨w2, hw2⟩
        · exact Or.inl hres
        · right
          refine ⟨w2, ?_⟩
          have hww : w ≠ w2 := by
            intro hc
            subst hc
            rw [hw] at hw2
            exact absurd hw2 (by simp)
          rw [List.getElem?_set, if_neg hww]
          exact hw2
      · intro i h1 h2
        exact hU i (by omega) h2
      · intro _
        omega
  · exact absurd h (by simp)

/-- A finish event preserves the invariant. -/
theorem inv_finish (tasks : List (Except ε τ)) (k : Nat) (s s2 : RC ε τ)
    (w : Nat) (hinv : Inv tasks k s)
    (h : RC.step tasks s (RCAct.finish w) = some s2) : Inv tasks k s2 := by
  obtain ⟨hW, hL, hR, hD, hF, hU, hT⟩ := hinv
  simp only [RC.step] at h
  split at h
  · rename_i i hw
    split at h
    · rename_i o ho
      cases h
      have hwlt : w < s.workers.length := lt_of_get? hw
      obtain ⟨hiT, hiN, hres⟩ := hR w i hw
      have hirl : i < s.results.length := by omega
      refine ⟨?_, ?_, ?_, ?_, ?_, ?_, ?_⟩ <;> dsimp only
      · simpa using hW
      · simpa using hL
      · intro w2 j h2
        simp only [List.getElem?_set] at h2
        by_cases hww : w = w2
        · subst hww
          rw [if_pos rfl, if_pos hwlt] at h2
          exact absurd h2 (by simp)
        · rw [if_neg hww] at h2
          obtain ⟨hjT, hjN, hjres⟩ := hR w2 j h2
          have hji : j ≠ i := by
            intro hc
            subst hc
            exact hww (hD w w2 j hw h2)
          refine ⟨hjT, hjN, ?_⟩
          rw [List.getElem?_set, if_neg (by omega)]
          exact hjres
      · intro w1 w2 j h1 h2
        simp only [List.getElem?_set] at h1 h2
        by_cases hw1 : w = w1
        · subst hw1
          rw [if_pos rfl, if_pos hwlt] at h1
          exact absurd h1 (by simp)
        · by_cases hw2 : w = w2
          · subst hw2
            rw [if_pos rfl, if_pos hwlt] at h2
            exact absurd h2 (by simp)
          · rw [if_neg hw1] at h1
            rw [if_neg hw2] at h2
            exact hD w1 w2 j h1 h2
      · intro j o2 hj ho2
        by_cases hji : j = i
        · subst hji
          left
          have hoo : o2 = o := by
            rw [ho2] at ho
            exact (Option.some.injEq _ _).mp ho
          subst hoo
          rw [List.getElem?_set, if_pos rfl, if_pos hirl]
        · rcases hF j o2 hj ho2 with hresj | ⟨w2, hw2⟩
          · left
            rw [List.getElem?_set, if_neg (by omega)]
            exact hresj
          · right
            have hww : w ≠ w2 := by
              intro hc
              subst hc
              rw [hw] at hw2
              simp only [Option.some.injEq, WStat.running.injEq] at hw2
              exact hji hw2.symm
            refine ⟨w2, ?_⟩
            rw [List.getElem?_set, if_neg hww]
            exact hw2
      · intro j h1 h2
        rw [List.getElem?_set, if_neg (by omega)]
        exact hU j h1 h2
      · intro hex
        obtain ⟨w2, hw2⟩ := hex
        simp only [List.getElem?_set] at hw2
        by_cases hww : w = w2
        · subst hww
          rw [if_pos rfl, if_pos hwlt] at hw2
          exact absurd hw2 (by simp)
        · rw [if_neg hww] at hw2
          exact hT ⟨w2, hw2⟩
    · exact absurd h (by simp)
  · exact absurd h (by simp)

/-- Every reachable execution state satisfies the invariant. -/
theorem inv_reach (tasks : List (Except ε τ)) (k : Nat) (s : RC ε τ)
    (h : RC.Reach tasks k s) : Inv tasks k s := by
  induction h with
  | init => exact inv_init tasks k
  | step hr hs ih =>
    rename_i s a s2
    cases a with
    | grab w => exact inv_grab tasks k _ _ w ih hs
    | finish w => exact inv_finish tasks k _ _ w ih hs

/-- In a terminal state (all workers done) of a run with at least one
worker, the results array holds exactly the per-task records, positionally
aligned with the input. -/
theorem rc_final (tasks : List (Except ε τ)) (k : Nat) (s : RC ε τ)
    (hinv : Inv tasks k s) (hk : tasks.length = 0 ∨ 1 ≤ k)
    (hdone : ∀ x ∈ s.workers, x = WStat.done) :
    s.results = tasks.map (fun o => some (runTask o)) := by
  obtain ⟨hW, hL, hR, hD, hF, hU, hT⟩ := hinv
  have hTi : tasks.length ≤ s.taskIndex := by
    rcases hk with h0 | h1
    · omega
    · have hwne : 0 < s.workers.length := by omega
      have hmem := List.getElem_mem hwne
      have hdone0 := hdone _ hmem
      refine hT ⟨0, ?_⟩
      rw [List.getElem?_eq_getElem hwne, hdone0]
  refine List.ext_getElem? ?_
  intro i
  by_cases hin : i < tasks.length
  · have ho : tasks[i]? = some (tasks[i]) := List.getElem?_eq_getElem hin
    rcases hF i _ (by omega) ho with hres | ⟨w2, hw2⟩
    · rw [hres, List.getElem?_map, ho]
      rfl
    · exfalso
      have hmem := List.getElem?_mem hw2
      have := hdone _ hmem
      exact absurd this (by simp)
  · have h1 : s.results[i]? = none := List.getElem?_eq_none (by omega)
    have h2 : (tasks.map (fun o => some (runTask o)))[i]? = none :=
      List.getElem?_eq_none (by simpa using by omega)
    rw [h1, h2]

/-- Concrete terminal trace of `runConcurrently` on one succeeding task
with one worker. -/
theorem rc_reach_ok_done :
    RC.Reach [Except.ok (4 : Nat)] 1
      ((⟨2, [some ⟨true, some 4, none⟩], [WStat.done]⟩) : RC Nat Nat) := by
  have h0 : RC.Reach [Except.ok (4 : Nat)] 1 (initRC Nat Nat 1 1) :=
    RC.Reach.init
  have h1 := @RC.Reach.step Nat Nat [Except.ok (4 : Nat)] 1
    (initRC Nat Nat 1 1) (RCAct.grab 0)
    (⟨1, [none], [WStat.running 0]⟩) h0 rfl
  have h2 := @RC.Reach.step Nat Nat [Except.ok (4 : Nat)] 1
    (⟨1, [none], [WStat.running 0]⟩) (RCAct.finish 0)
    (⟨1, [some ⟨true, some 4, none⟩], [WStat.idle]⟩) h1 rfl
  exact @RC.Reach.step Nat Nat [Except.ok (4 : Nat)] 1
    (⟨1, [some ⟨true, some 4, none⟩], [WStat.idle]⟩) (RCAct.grab 0)
    (⟨2, [some ⟨true, some 4, none⟩], [WStat.done]⟩) h2 rfl

/-- Concrete terminal trace of `runConcurrently` on one failing task with
one worker. -/
theorem rc_reach_err_done :
    RC.Reach [Except.error (9 : Nat)] 1
      ((⟨2, [some ⟨false, none, some 9⟩], [WStat.done]⟩) : RC Nat Nat) := by
  have h0 : RC.Reach [Except.error (9 : Nat)] 1 (initRC Nat Nat 1 1) :=
    RC.Reach.init
  have h1 := @RC.Reach.step Nat Nat [Except.error (9 : Nat)] 1
    (initRC Nat Nat 1 1) (RCAct.grab 0)
    (⟨1, [none], [WStat.running 0]⟩) h0 rfl
  have h2 := @RC.Reach.step Nat Nat [Except.error (9 : Nat)] 1
    (⟨1, [none], [WStat.running 0]⟩) (RCAct.finish 0)
    (⟨1, [some ⟨false, none, some 9⟩], [WStat.idle]⟩) h1 rfl
  exact @RC.Reach.step Nat Nat [Except.error (9 : Nat)] 1
    (⟨1, [some ⟨false, none, some 9⟩], [WStat.idle]⟩) (RCAct.grab 0)
    (⟨2, [some ⟨false, none, some 9⟩], [WStat.done]⟩) h2 rfl

end RunC

/-- C1: For every reachable state of the scheduler/pool, under any
interleaving of submissions and task completions, the count of running
tasks satisfies `0 ≤ activeCount ≤ maxConcurrency`; no dispatch or
settlement step ever pushes it above the configured limit.  (Counts are
naturals, so the lower bound is inherent; stated for both the
`AsyncTaskPool` scheduler and `RequestPool`.) -/
theorem C1_active_count_bounded :
    (∀ (α : Type) (s : PoolM.Pool α), PoolM.Pool.Reach s →
        s.running.length ≤ s.concurrency)
  ∧ (∀ s : RPool.RP, RPool.RP.Reach s → s.active ≤ s.maxConcurrent) :=
  ⟨fun _ s h => PoolM.pool_running_le s h, fun s h => RPool.rp_active_le_max s h⟩

/-- Witness for C1 at concrete reachable states. -/
theorem C1_witness :
    ((⟨1, [], [0], [], false, 0, [0]⟩ : PoolM.Pool Nat).running.length ≤ 1)
  ∧ ((⟨3, 1, 0⟩ : RPool.RP).active ≤ 3) := by
  constructor
  · exact C1_active_count_bounded.1 Nat _ PoolM.reach_one_running
  · refine C1_active_count_bounded.2 _ ?_
    exact RPool.RP.Reach.step (RPool.RP.Reach.init 3)
      (RPool.RP.Step.addRun ⟨3, 0, 0⟩ (by decide))

/-- C2: With the hard-wired `maxRetries = 3` and a body that always fails,
`retryWrapper` starts the body exactly 3 times and then fails with the
propagated error (the task ends up abandoned); it is never attempted a 4th
time. -/
theorem C2_three_attempts (e t : Type) (fn : RetryW.Beh e t)
    (hfail : ∀ k, ∃ err, fn k = Except.error err) :
    (RetryW.retryWrapper fn).2 = 3
  ∧ ∃ err, (RetryW.retryWrapper fn).1 = Except.error err := by
  obtain ⟨err, h⟩ := RetryW.retryGo_fails fn hfail 3 0 (by omega)
  unfold RetryW.retryWrapper
  rw [h]
  exact ⟨rfl, err, rfl⟩

/-- Witness for C2 with a concrete always-failing body. -/
theorem C2_witness :
    (RetryW.retryWrapper (fun _ => Except.error 0 : RetryW.Beh Nat Nat)).2 = 3
  ∧ ∃ err,
      (RetryW.retryWrapper (fun _ => Except.error 0 : RetryW.Beh Nat Nat)).1
        = Except.error err :=
  C2_three_attempts Nat Nat _ (fun _ => ⟨0, rfl⟩)

/-- C3: The completion future never resolves in any execution state where
tasks are running or queued; the `checkIfDone` signal fires in a turn
exactly when, at that point, the running count is 0 and the queue is empty,
and a `finished` pool (the only state where `awaitAll` resolves
immediately) is always drained. -/
theorem C3_signal_iff_drained :
    (∀ (α : Type) (s : PoolM.Pool α) (a : PoolM.PAct α)
        (out : PoolM.Pool α × Bool),
        PoolM.Pool.step s a = some out →
        (out.2 = true ↔ (out.1.running = [] ∧ out.1.queue = [])))
  ∧ (∀ (α : Type) (s : PoolM.Pool α), PoolM.Pool.Reach s →
        s.finished = true → s.running = [] ∧ s.queue = []) :=
  ⟨fun _ s a out h => PoolM.pool_step_fired s a out h,
   fun _ s h hf => PoolM.pool_finished_drained s h hf⟩

/-- Witness for C3 at a concrete drain step. -/
theorem C3_witness :
    ((true = true) ↔
      (([] : List Nat) = [] ∧ ([] : List Nat) = []))
  ∧ (((⟨1, [], [], [0], true, 0, [0]⟩ : PoolM.Pool Nat).running = []
      ∧ (⟨1, [], [], [0], true, 0, [0]⟩ : PoolM.Pool Nat).queue = [])) := by
  constructor
  · exact C3_signal_iff_drained.1 Nat (⟨1, [], [0], [], false, 0, [0]⟩)
      (PoolM.PAct.settle 0 true) ((⟨1, [], [], [0], true, 0, [0]⟩), true) rfl
  · exact C3_signal_iff_drained.2 Nat _ PoolM.reach_drained rfl

/-- C4 counterexample: on the code, a drained pool (concurrency 1, one task
submitted and settled, `finished = true`) rejects a new submission —
`Pool.step` on `add` returns `none`, modelling the thrown pool-closed
error — so a new submission after a drain is NOT accepted and the drained
state is never reset. -/
theorem C4_counterexample :
    PoolM.Pool.step (PoolM.initPool Nat 1) (PoolM.PAct.add 0)
        = some (⟨1, [], [0], [], false, 0, [0]⟩, false)
  ∧ PoolM.Pool.step (⟨1, [], [0], [], false, 0, [0]⟩ : PoolM.Pool Nat)
        (PoolM.PAct.settle 0 true)
        = some (⟨1, [], [], [0], true, 0, [0]⟩, true)
  ∧ PoolM.Pool.step (⟨1, [], [], [0], true, 0, [0]⟩ : PoolM.Pool Nat)
        (PoolM.PAct.add 1) = none :=
  ⟨rfl, rfl, rfl⟩

/-- C4 (amended): After a drain, a new submission on the same pool instance
is rejected (the add throws, i.e. steps to `none`), the drained/finished
state is never reset to false by any turn, and hence the instance supports
only a single submission/drain cycle. -/
theorem C4_amended :
    (∀ (α : Type) (s : PoolM.Pool α) (t : α), s.finished = true →
        PoolM.Pool.step s (PoolM.PAct.add t) = none)
  ∧ (∀ (α : Type) (s : PoolM.Pool α) (a : PoolM.PAct α)
        (out : PoolM.Pool α × Bool),
        PoolM.Pool.step s a = some out → s.finished = true →
        out.1.finished = true) := by
  constructor
  · intro α s t hf
    simp [PoolM.Pool.step, hf]
  · intro α s a out h hf
    exact PoolM.pool_finished_mono s a out h hf

/-- Witness for C4 amended at the concrete drained pool. -/
theorem C4_amended_witness :
    PoolM.Pool.step (⟨1, [], [], [0], true, 0, [0]⟩ : PoolM.Pool Nat)
        (PoolM.PAct.add 2) = none
  ∧ (⟨1, [], [], [7], true, 0, []⟩ : PoolM.Pool Nat).finished = true := by
  constructor
  · exact C4_amended.1 Nat _ 2 rfl
  · exact C4_amended.2 Nat (⟨1, [], [7], [], true, 0, []⟩ : PoolM.Pool Nat)
      (PoolM.PAct.settle 0 true)
      ((⟨1, [], [], [7], true, 0, []⟩ : PoolM.Pool Nat), true) rfl rfl

/-- C5: Dispatch repeatedly pops the head of the queue while
`activeCount < maxConcurrency` and the queue is non-empty: `runNext` starts
exactly the first `min (maxConcurrency - running) queue.length` queued
tasks, in queue order (so execution begins in FIFO order among currently
queued tasks), and a submission appends its task at the tail of the queue
before dispatching. -/
theorem C5_fifo_dispatch :
    (∀ (α : Type) (c : Nat) (q r log : List α),
        PoolM.runNextAux c q r log =
          (q.drop (min (c - r.length) q.length),
           r ++ q.take (min (c - r.length) q.length),
           log ++ q.take (min (c - r.length) q.length)))
  ∧ (∀ (α : Type) (s : PoolM.Pool α) (t : α), s.finished = false →
        PoolM.Pool.step s (PoolM.PAct.add t)
          = some (PoolM.Pool.runNext { s with queue := s.queue ++ [t] },
                  false)) := by
  constructor
  · intro α c q r log
    exact PoolM.runNextAux_eq c q r log
  · intro α s t hf
    simp [PoolM.Pool.step, hf]

/-- Witness for C5 at a concrete submission step. -/
theorem C5_witness :
    PoolM.runNextAux 2 [10, 11, 12] [0] ([] : List Nat)
        = ([11, 12], [0, 10], [10])
  ∧ PoolM.Pool.step (PoolM.initPool Nat 1) (PoolM.PAct.add 5)
      = some (PoolM.Pool.runNext
          { PoolM.initPool Nat 1 with queue := [] ++ [5] }, false) := by
  constructor
  · have h := C5_fifo_dispatch.1 Nat 2 [10, 11, 12] [0] []
    simpa using h
  · exact C5_fifo_dispatch.2 Nat (PoolM.initPool Nat 1) 5 rfl

/-- C6 (scheduler modelled from the spec; the repository has no `close()`):
calling `submit` after `close` fails synchronously with `PoolClosedError`;
`close` only sets the flag and leaves queued/running records untouched;
settlement bookkeeping is independent of the flag, so tasks admitted before
`close` still run to completion; the partition invariant then guarantees
that once the pool drains, every admitted id is reflected in the drain
result (succeeded or abandoned). -/
theorem C6_submit_after_close :
    (∀ (s : SSched.Sched) (tid : Nat), s.closed = true →
        SSched.Sched.submit s tid
          = Except.error SSched.PoolClosedError.poolClosed)
  ∧ (∀ s : SSched.Sched, SSched.Sched.close s = { s with closed := true })
  ∧ (∀ (s : SSched.Sched) (i : Nat) (ok b : Bool),
        SSched.Sched.settleTask { s with closed := b } i ok
          = (SSched.Sched.settleTask s i ok).map
              (fun u => { u with closed := b }))
  ∧ (∀ s : SSched.Sched, SSched.Sched.Reach s →
        (SSched.ids s.queue : Multiset Nat) + (SSched.ids s.running)
            + s.succeeded + s.abandoned = (s.submitted : Multiset Nat))
  ∧ (∀ s : SSched.Sched, SSched.Sched.Reach s → s.queue = [] →
        s.running = [] →
        s.submitted.Perm (s.succeeded ++ s.abandoned)) := by
  refine ⟨?_, ?_, ?_, ?_, ?_⟩
  · intro s tid hc
    simp [SSched.Sched.submit, hc]
  · intro s
    rfl
  · intro s i ok b
    exact SSched.settleTask_closed s i ok b
  · intro s h
    exact SSched.sched_partition s h
  · intro s h hq hr
    exact SSched.sched_drained_partition s h hq hr

/-- Witness for C6 at concrete scheduler states. -/
theorem C6_witness :
    SSched.Sched.submit (⟨2, 3, true, [], [], [], [], []⟩ : SSched.Sched) 5
        = Except.error SSched.PoolClosedError.poolClosed
  ∧ ([0] : List Nat).Perm ([] ++ [0]) := by
  constructor
  · exact C6_submit_after_close.1 ⟨2, 3, true, [], [], [], [], []⟩ 5 rfl
  · exact C6_submit_after_close.2.2.2.2 _ SSched.sched_reach_drained rfl rfl

/-- C7: A task's own failure is never thrown to the caller: `runTask`'s
catch converts it into a failure record stored at the task's own index, the
top-level call fails only on an invalid concurrency bound, and in every
complete execution each other task still has its own correct entry — the
failure of task N neither blocks nor corrupts task M. -/
theorem C7_failure_absorbed (ε τ : Type) (tasks : List (Except ε τ))
    (mc : Nat) (s : RunC.RC ε τ) (hmc : 1 ≤ mc)
    (hr : RunC.RC.Reach tasks (min mc tasks.length) s)
    (hdone : ∀ x ∈ s.workers, x = RunC.WStat.done) :
    (∀ (i : Nat) (err : ε), tasks[i]? = some (Except.error err) →
        s.results[i]? = some (some ⟨false, none, some err⟩))
  ∧ (∀ (j : Nat) (o : Except ε τ), tasks[j]? = some o →
        s.results[j]? = some (some (RunC.runTask o)))
  ∧ RunC.rcGuard mc = Except.ok () := by
  have hinv := RunC.inv_reach tasks _ s hr
  have hk : tasks.length = 0 ∨ 1 ≤ min mc tasks.length := by omega
  have hfin := RunC.rc_final tasks _ s hinv hk hdone
  refine ⟨?_, ?_, ?_⟩
  · intro i err hie
    rw [hfin, List.getElem?_map, hie]
    rfl
  · intro j o ho
    rw [hfin, List.getElem?_map, ho]
    rfl
  · simp [RunC.rcGuard, show ¬ mc < 1 by omega]

/-- Witness for C7 on a concrete complete execution with a failing task. -/
theorem C7_witness :
    ((⟨2, [some ⟨false, none, some 9⟩], [RunC.WStat.done]⟩)
        : RunC.RC Nat Nat).results[0]?
      = some (some ⟨false, none, some 9⟩)
  ∧ RunC.rcGuard 1 = Except.ok () := by
  have h := C7_failure_absorbed Nat Nat [Except.error (9 : Nat)] 1
    (⟨2, [some ⟨false, none, some 9⟩], [RunC.WStat.done]⟩)
    (by omega) RunC.rc_reach_err_done (by
      intro x hx
      simpa using hx)
  exact ⟨h.1 0 9 rfl, h.2.2⟩

/-- C8: Task identity is stable across retries: with pairwise-distinct task
closures, `retryFailedTasks` records every retried task's outcome under the
id/index it had at original submission (the keys of the failed-map
snapshot), never as a fresh entry; and a first `executeTasks` run assigns
the submission positions as indices. -/
theorem C8_identity_stable (γ ε τ : Type) [DecidableEq γ]
    (beh : γ → Except ε τ) (st : TExec.TEState γ τ)
    (hnd : (st.failedTasks.map Prod.snd).Nodup) :
    ((TExec.retryFailedTasks beh st).1.map TExec.TaskRes.index
        = st.failedTasks.map Prod.fst)
  ∧ (∀ (l : List γ) (st0 : TExec.TEState γ τ),
        (TExec.executeTasks beh [] l 0 st0).1.map TExec.TaskRes.index
          = List.range l.length) := by
  constructor
  · unfold TExec.retryFailedTasks
    rw [TExec.executeTasks_indices_found]
    · rw [List.map_map]
      refine List.map_congr_left ?_
      intro q hq
      have hmem : (q.1, q.2) ∈ st.failedTasks := by simpa using hq
      have := TExec.jsGet_swap_mem st.failedTasks q.1 q.2 hnd hmem
      simp only [Function.comp_apply, this]
      rfl
    · intro t htl
      simp only [List.mem_map] at htl
      obtain ⟨q, hq, hqt⟩ := htl
      have hmem : (q.1, t) ∈ st.failedTasks := by
        rw [← hqt]
        simpa using hq
      rw [TExec.jsGet_swap_mem st.failedTasks q.1 t hnd hmem]
      rfl
  · intro l st0
    rw [TExec.executeTasks_indices_first]
    exact (List.range_eq_range' l.length).symm

/-- Witness for C8 with a concrete failed map. -/
theorem C8_witness :
    ((TExec.retryFailedTasks (fun t => if t = 10 then Except.ok 1
          else Except.error 0)
        (⟨[], [(0, 10), (2, 11)]⟩ : TExec.TEState Nat Nat)).1.map
          TExec.TaskRes.index
        = [0, 2])
  ∧ ((TExec.executeTasks
        (fun t => if t = 10 then Except.ok 1 else (Except.error 0 : Except Nat Nat))
        [] [5, 6] 0 (⟨[], []⟩ : TExec.TEState Nat Nat)).1.map
          TExec.TaskRes.index
        = List.range 2) := by
  have h := C8_identity_stable Nat Nat Nat
    (fun t => if t = 10 then Except.ok 1 else Except.error 0)
    (⟨[], [(0, 10), (2, 11)]⟩ : TExec.TEState Nat Nat) (by decide)
  exact ⟨h.1, h.2 [5, 6] ⟨[], []⟩⟩

/-- C9: `awaitAll` is idempotent after a drain: on a `finished` pool it
resolves immediately with the current results, leaves the state (including
the ghost log of task starts) unchanged, and a second call returns the
identical snapshot without executing any task. -/
theorem C9_awaitAll_idempotent (α : Type) (s : PoolM.Pool α)
    (h : s.finished = true) :
    PoolM.Pool.awaitAll s = (some s.results, s)
  ∧ PoolM.Pool.awaitAll (PoolM.Pool.awaitAll s).2 = (some s.results, s)
  ∧ (PoolM.Pool.awaitAll s).2.startLog = s.startLog := by
  simp [PoolM.Pool.awaitAll, h]

/-- Witness for C9 at the concrete drained pool. -/
theorem C9_witness :
    PoolM.Pool.awaitAll (⟨1, [], [], [0], true, 0, [0]⟩ : PoolM.Pool Nat)
      = (some [0], ⟨1, [], [], [0], true, 0, [0]⟩) :=
  (C9_awaitAll_idempotent Nat (⟨1, [], [], [0], true, 0, [0]⟩) rfl).1

/-- C10: For every task array and every valid `maxConcurrent`, any complete
execution of `runConcurrently` (all worker chains returned), under any
completion order, produces a result array positionally aligned with the
input: one entry per input task, where the entry at index `i` is exactly
the success/failure record of `tasks[i]`. -/
theorem C10_positional_results (ε τ : Type) (tasks : List (Except ε τ))
    (mc : Nat) (s : RunC.RC ε τ) (hmc : 1 ≤ mc)
    (hr : RunC.RC.Reach tasks (min mc tasks.length) s)
    (hdone : ∀ x ∈ s.workers, x = RunC.WStat.done) :
    s.results = tasks.map (fun o => some (RunC.runTask o))
  ∧ s.results.length = tasks.length := by
  have hinv := RunC.inv_reach tasks _ s hr
  have hk : tasks.length = 0 ∨ 1 ≤ min mc tasks.length := by omega
  have hfin := RunC.rc_final tasks _ s hinv hk hdone
  exact ⟨hfin, hinv.hL⟩

/-- Witness for C10 on a concrete complete execution. -/
theorem C10_witness :
    ((⟨2, [some ⟨true, some 4, none⟩], [RunC.WStat.done]⟩)
        : RunC.RC Nat Nat).results
      = [Except.ok (4 : Nat)].map (fun o => some (RunC.runTask o)) := by
  have h := C10_positional_results Nat Nat [Except.ok (4 : Nat)] 1
    (⟨2, [some ⟨true, some 4, none⟩], [RunC.WStat.done]⟩)
    (by omega) RunC.rc_reach_ok_done (by
      intro x hx
      simpa using hx)
  exact h.1
